import Mathlib

/-!
Verification of the Sudoku solving engine in `solver.py` (`class solverSudoku`).

The board `self.board` is a 9×9 matrix of digits 0..9 (0 = empty); we embed
it as a function `Nat → Nat → Nat` read/written at indices below 9.  The
possibility matrix (9×9 of Python sets of candidate digits) is embedded as a
function `Nat → Nat → List Nat`; every set operation the code performs
(membership, discard, clear, len) is mirrored on lists.  Loops with early
`return` become `List.all`, nested `for` loops over mutable state become
`List.foldl`, and `set.discard` becomes `List.filter`.  The two unbounded
recursions of the source — the `while progress` propagation loop of
`solve_greedy` and the recursion of `solve_smart_backtracking` — are given
an explicit fuel of 82; the termination theorems below prove that 82 is
enough fuel (each placement fills one of at most 81 empty cells), so the
out-of-fuel branches are unreachable and the embedding computes exactly
what the Python loops compute.
-/

set_option maxRecDepth 8000

namespace SudokuSolver

/-- The 9×9 board: a digit 0..9 per cell, 0 meaning empty. -/
def Grid := Nat → Nat → Nat

/-- The possibility matrix: a set (list) of candidate digits per cell. -/
def Poss := Nat → Nat → List Nat

/-- `self.board[r][c] = v` : update one board cell. -/
def setCell (g : Grid) (r c v : Nat) : Grid :=
  fun i j => if i = r ∧ j = c then v else g i j

/-- `possibilities[r][c] = s` : update one possibility-matrix cell. -/
def setPoss (p : Poss) (r c : Nat) (s : List Nat) : Poss :=
  fun i j => if i = r ∧ j = c then s else p i j

/-- `is_valid(row, col, num)` from `solver.py`: scans row `row`, column
`col` and the 3×3 box with origin `(3*(row//3), 3*(col//3))`, returning
false as soon as `num` is found. -/
def is_valid (g : Grid) (row col num : Nat) : Bool :=
  ((List.range 9).all fun j => !(g row j == num)) &&
  ((List.range 9).all fun i => !(g i col == num)) &&
  ((List.range' (3 * (row / 3)) 3).all fun i =>
    (List.range' (3 * (col / 3)) 3).all fun j => !(g i j == num))

/-- The all-empty grid. -/
def zeroGrid : Grid := fun _ _ => 0

/-- The grid obtained from the empty grid by placing 5 at `(0, 0)`. -/
def fiveGrid : Grid := setCell zeroGrid 0 0 5

/-- `initialize_possibilities()` from `solver.py`: for every empty cell
the set of digits 1..9 that currently pass `is_valid` (collected in
increasing order, as the `for num in range(1, 10)` loop does); every other
cell keeps its initial empty set. -/
def initialize_possibilities (g : Grid) : Poss :=
  fun i j =>
    if i < 9 ∧ j < 9 ∧ g i j = 0 then
      (List.range' 1 9).filter (fun num => is_valid g i j num)
    else []

/-- `update_possibilities(possibilities, row, col, num)` from `solver.py`:
discard `num` from every set in row `row`, then every set in column `col`,
then every set in the 3×3 box of `(row, col)`, and finally clear the set of
`(row, col)` itself.  Each `for` loop is a `foldl` over its index range and
`set.discard` is a `filter`. -/
def update_possibilities (p : Poss) (row col num : Nat) : Poss :=
  let p1 := (List.range 9).foldl
    (fun q j => setPoss q row j ((q row j).filter (fun d => d ≠ num))) p
  let p2 := (List.range 9).foldl
    (fun q i => setPoss q i col ((q i col).filter (fun d => d ≠ num))) p1
  let p3 := (List.range' (3 * (row / 3)) 3).foldl
    (fun q i => (List.range' (3 * (col / 3)) 3).foldl
      (fun q2 j => setPoss q2 i j ((q2 i j).filter (fun d => d ≠ num))) q) p2
  setPoss p3 row col []

/-- The mutable state of `solve_greedy`: `self.board`, the local
`possibilities` matrix, `self.steps`, and the loop's `progress` flag. -/
structure PState where
  board : Grid
  poss : Poss
  steps : Nat
  progress : Bool

/-- The placement block repeated in every `solve_greedy` rule:
`self.board[i][j] = num; self.update_possibilities(...); progress = True;
self.steps += 1`. -/
def place (s : PState) (i j num : Nat) : PState :=
  { board := setCell s.board i j num
    poss := update_possibilities s.poss i j num
    steps := s.steps + 1
    progress := true }

/-- Naked singles, body of the double loop: place when the cell is empty
and its possibility set has exactly one element (`next(iter(...))` is the
head of a singleton). -/
def nakedStep (s : PState) (i j : Nat) : PState :=
  if s.board i j = 0 ∧ (s.poss i j).length = 1 then
    place s i j ((s.poss i j).headD 0)
  else s

def nakedPhase (s : PState) : PState :=
  (List.range 9).foldl
    (fun t i => (List.range 9).foldl (fun u j => nakedStep u i j) t) s

/-- Hidden singles in a row, body of the `(i, num)` loop: collect the
columns where `num` is still possible; place if there is exactly one. -/
def hiddenRowStep (s : PState) (i num : Nat) : PState :=
  let candidates := (List.range 9).filter
    (fun j => s.board i j == 0 && (s.poss i j).contains num)
  if candidates.length = 1 then place s i (candidates.headD 0) num else s

def hiddenRowPhase (s : PState) : PState :=
  (List.range 9).foldl
    (fun t i => (List.range' 1 9).foldl (fun u num => hiddenRowStep u i num) t) s

/-- Hidden singles in a column. -/
def hiddenColStep (s : PState) (j num : Nat) : PState :=
  let candidates := (List.range 9).filter
    (fun i => s.board i j == 0 && (s.poss i j).contains num)
  if candidates.length = 1 then place s (candidates.headD 0) j num else s

def hiddenColPhase (s : PState) : PState :=
  (List.range 9).foldl
    (fun t j => (List.range' 1 9).foldl (fun u num => hiddenColStep u j num) t) s

/-- Hidden singles in a 3×3 box, body of the `(box, num)` loop:
`start_row = 3*(box//3)`, `start_col = 3*(box%3)`, candidates are the
`(i, j)` pairs of the box where `num` is still possible. -/
def boxStep (s : PState) (box num : Nat) : PState :=
  let candidates := (List.range' (3 * (box / 3)) 3).flatMap
    (fun i => ((List.range' (3 * (box % 3)) 3).filter
        (fun j => s.board i j == 0 && (s.poss i j).contains num)).map
      (fun j => (i, j)))
  if candidates.length = 1 then
    place s (candidates.headD (0, 0)).1 (candidates.headD (0, 0)).2 num
  else s

def boxPhase (s : PState) : PState :=
  (List.range 9).foldl
    (fun t box => (List.range' 1 9).foldl (fun u num => boxStep u box num) t) s

/-- One iteration of the `while progress` loop of `solve_greedy`:
`progress = False`, then naked singles, hidden singles for rows, columns
and boxes, in this order. -/
def propagationPass (s : PState) : PState :=
  boxPhase (hiddenColPhase (hiddenRowPhase (nakedPhase { s with progress := false })))

/-- The `while progress` loop, with explicit fuel; the termination theorem
below shows fuel 82 is never exhausted. -/
def greedyLoop : Nat → PState → PState
  | 0, s => s
  | fuel + 1, s => if s.progress then greedyLoop fuel (propagationPass s) else s

/-- Initial state of `solve_greedy`: fresh possibility matrix, progress
flag true so the loop is entered. -/
def greedyInit (g : Grid) (steps : Nat) : PState :=
  { board := g, poss := initialize_possibilities g, steps := steps, progress := true }

/-- `solve_greedy()` from `solver.py`: run propagation to fixed point and
report whether the board has no empty cell left.  Returns the result, the
final board, and the final step counter (the Python method returns the
bool and mutates `self`). -/
def solve_greedy (g : Grid) (steps : Nat) : Bool × Grid × Nat :=
  let s1 := greedyLoop 82 (greedyInit g steps)
  (((List.range 9).all fun i => (List.range 9).all fun j => !(s1.board i j == 0)),
    s1.board, s1.steps)

/-- The row-major list of the 81 cells, as scanned by the nested
`for i / for j` loops. -/
def allCells : List (Nat × Nat) :=
  (List.range 9).flatMap (fun i => (List.range 9).map (fun j => (i, j)))

/-- `sum(1 for num in range(1, 10) if self.is_valid(i, j, num))`. -/
def possCount (g : Grid) (i j : Nat) : Nat :=
  (List.range' 1 9).countP (fun num => is_valid g i j num)

/-- The body of the `find_most_constrained_cell` scan: keep the running
minimum (strict `<` comparison) and its first cell. -/
def mcvStep (g : Grid) (acc : Nat × Option (Nat × Nat)) (ij : Nat × Nat) :
    Nat × Option (Nat × Nat) :=
  if g ij.1 ij.2 = 0 then
    if possCount g ij.1 ij.2 < acc.1 then (possCount g ij.1 ij.2, some ij) else acc
  else acc

/-- `find_most_constrained_cell()` from `solver.py`: row-major scan with
`min_possibilities = 10`, `best_cell = None`. -/
def find_most_constrained_cell (g : Grid) : Option (Nat × Nat) :=
  (allCells.foldl (mcvStep g) (10, none)).2

/-- Number of empty cells of the 9×9 board (the measure that every
placement decreases). -/
def numEmpty (g : Grid) : Nat :=
  allCells.countP (fun ij => g ij.1 ij.2 == 0)

/-- The `for num in range(1, 10)` loop of `solve_smart_backtracking`,
parameterized by the recursive call `rec` at the smaller fuel: try each
digit in order; on a legal placement recurse; on recursive failure reset
the cell to 0, count a backtrack, and continue. -/
def btTry (rec : Grid → Nat → Nat → Bool × Grid × Nat × Nat) (row col : Nat) :
    Grid → Nat → Nat → List Nat → Bool × Grid × Nat × Nat
  | board, steps, backtracks, [] => (false, board, steps, backtracks)
  | board, steps, backtracks, num :: rest =>
    if is_valid board row col num then
      match rec (setCell board row col num) steps backtracks with
      | (true, b2, st2, bt2) => (true, b2, st2, bt2)
      | (false, b2, st2, bt2) =>
        btTry rec row col (setCell b2 row col 0) st2 (bt2 + 1) rest
    else btTry rec row col board steps backtracks rest

/-- `solve_smart_backtracking()` from `solver.py`: count the invocation in
`self.steps`, pick the most constrained cell (none means solved), try
digits 1..9 there.  The Python recursion needs no fuel; the fuel-0 branch
is unreachable from any 9×9 board when started with fuel 82, since each
recursive call fills one more of at most 81 empty cells. -/
def solve_smart_backtracking : Nat → Grid → Nat → Nat → Bool × Grid × Nat × Nat
  | 0, board, steps, backtracks => (false, board, steps, backtracks)
  | fuel + 1, board, steps, backtracks =>
    match find_most_constrained_cell board with
    | none => (true, board, steps + 1, backtracks)
    | some (row, col) =>
      btTry (solve_smart_backtracking fuel) row col board (steps + 1) backtracks
        (List.range' 1 9)

/-- `solve_combined()` from `solver.py` on a fresh solver instance
(`steps = backtracks = 0`): greedy propagation first, then backtracking on
whatever partial board propagation left.  Returns the result, the final
board, and the two counters. -/
def solve_combined (g : Grid) : Bool × Grid × Nat × Nat :=
  match solve_greedy g 0 with
  | (true, b, st) => (true, b, st, 0)
  | (false, b, st) => solve_smart_backtracking 82 b st 0

/-- Invariant of the `find_most_constrained_cell` scan over a processed
prefix `l`: either no empty cell was seen and the accumulator is still
`(10, none)`, or the accumulator holds the first cell of `l` realizing the
minimum candidate count (cells before it have strictly more candidates,
cells after it at least as many). -/
def McvInv (g : Grid) (l : List (Nat × Nat)) (acc : Nat × Option (Nat × Nat)) :
    Prop :=
  (acc = (10, none) ∧ ∀ ij ∈ l, g ij.1 ij.2 ≠ 0) ∨
  (∃ x l1 l2, l = l1 ++ x :: l2 ∧ acc = (possCount g x.1 x.2, some x) ∧
    g x.1 x.2 = 0 ∧
    (∀ ij ∈ l1, g ij.1 ij.2 = 0 →
      possCount g x.1 x.2 < possCount g ij.1 ij.2) ∧
    (∀ ij ∈ l2, g ij.1 ij.2 = 0 →
      possCount g x.1 x.2 ≤ possCount g ij.1 ij.2))

/-- A fully solved reference grid (a standard published Sudoku solution). -/
def exRows : List (List Nat) :=
  [[5,3,4,6,7,8,9,1,2],
   [6,7,2,1,9,5,3,4,8],
   [1,9,8,3,4,2,5,6,7],
   [8,5,9,7,6,1,4,2,3],
   [4,2,6,8,5,3,7,9,1],
   [7,1,3,9,2,4,8,5,6],
   [9,6,1,5,3,7,2,8,4],
   [2,8,7,4,1,9,6,3,5],
   [3,4,5,2,8,6,1,7,9]]

def exGrid : Grid := fun i j => (exRows.getD i []).getD j 0

/-- `exGrid` with the corner overwritten by its row neighbour's digit 3:
a full grid whose entries are all in 1..9 but whose row 0, column 0 and
box 0 each contain 3 twice. -/
def badGrid : Grid := fun i j => if i = 0 ∧ j = 0 then 3 else exGrid i j

/-- A consistent but unsolvable position: row 0 holds 1..8 in its first
eight cells and a 9 sits at `(1, 8)`, so no digit can legally enter the
empty cell `(0, 8)`. -/
def g2Grid : Grid :=
  fun i j => if i = 0 ∧ j < 8 then j + 1 else if i = 1 ∧ j = 8 then 9 else 0

/-- All in-range cells hold digits 0..9. -/
def InRange (g : Grid) : Prop := ∀ i, i < 9 → ∀ j, j < 9 → g i j ≤ 9

/-- No in-range cell is empty. -/
def FullBoard (g : Grid) : Prop := ∀ i, i < 9 → ∀ j, j < 9 → g i j ≠ 0

/-- No two distinct cells of a common row, column or box hold the same
nonzero digit. -/
def noConflict (g : Grid) : Prop :=
  ∀ i, i < 9 → ∀ j, j < 9 → ∀ a, a < 9 → ∀ b, b < 9 →
    ((i, j) ≠ (a, b) ∧ (i = a ∨ j = b ∨ (i / 3 = a / 3 ∧ j / 3 = b / 3)) ∧
      g i j ≠ 0) →
    g i j ≠ g a b

/-- `g'` agrees with `g` on every cell `g` has filled: the solver only
writes into empty cells. -/
def Extends (g g' : Grid) : Prop := ∀ i j, g i j ≠ 0 → g' i j = g i j

/-- Number of cells of row `i` holding digit `d`. -/
def rowCount (g : Grid) (i d : Nat) : Nat :=
  (List.range 9).countP (fun j => g i j == d)

/-- Number of cells of column `j` holding digit `d`. -/
def colCount (g : Grid) (j d : Nat) : Nat :=
  (List.range 9).countP (fun i => g i j == d)

/-- Number of cells of box `b` (row-major box order, origin
`(3*(b/3), 3*(b%3))`) holding digit `d`. -/
def boxCount (g : Grid) (b d : Nat) : Nat :=
  (List.range 9).countP (fun k => g (3 * (b / 3) + k / 3) (3 * (b % 3) + k % 3) == d)

/-- A solved grid: every cell holds a digit 1..9 and every row, column and
box contains each digit exactly once. -/
def SolvedAll (g : Grid) : Prop :=
  (∀ i, i < 9 → ∀ j, j < 9 → 1 ≤ g i j ∧ g i j ≤ 9) ∧
  (∀ i, i < 9 → ∀ d, d ≤ 9 → 1 ≤ d → rowCount g i d = 1) ∧
  (∀ j, j < 9 → ∀ d, d ≤ 9 → 1 ≤ d → colCount g j d = 1) ∧
  (∀ b, b < 9 → ∀ d, d ≤ 9 → 1 ≤ d → boxCount g b d = 1)

/-- All stored candidates are digits 1..9 (true from initialization on,
since updates only remove candidates). -/
def PR (s : PState) : Prop := ∀ i j, ∀ d ∈ s.poss i j, 1 ≤ d ∧ d ≤ 9

/-- Soundness of the possibility matrix: every stored candidate of an
empty cell passes `is_valid` against the current board. -/
def PossOK (s : PState) : Prop :=
  ∀ i j, i < 9 → j < 9 → s.board i j = 0 →
    ∀ d ∈ s.poss i j, is_valid s.board i j d = true

/-- The propagation invariant: candidate digits in range, board in range,
board conflict-free, matrix sound. -/
def GInv (s : PState) : Prop :=
  PR s ∧ InRange s.board ∧ noConflict s.board ∧ PossOK s

/-- Relation between a propagation state and any state reached from it by
rule applications: candidates stay in range and the number of empty cells
never grows (strictly shrinking whenever the progress flag was raised);
the full invariant and board extension are preserved; and a full board is
left completely untouched. -/
def StepRel (s t : PState) : Prop :=
  (PR s → PR t ∧ numEmpty t.board ≤ numEmpty s.board ∧
    (t.progress = true → s.progress = true ∨
      numEmpty t.board < numEmpty s.board)) ∧
  (GInv s → GInv t ∧ Extends s.board t.board) ∧
  (FullBoard s.board → t = s)

instance instDecidableInRange (g : Grid) : Decidable (InRange g) := by
  unfold InRange
  infer_instance

instance instDecidableFullBoard (g : Grid) : Decidable (FullBoard g) := by
  unfold FullBoard
  infer_instance

instance instDecidableNoConflict (g : Grid) : Decidable (noConflict g) := by
  unfold noConflict
  exact @Nat.decidableBallLT 9 _
    (fun i hi => @Nat.decidableBallLT 9 _ (fun j hj => inferInstance))

instance instDecidableSolvedAll (g : Grid) : Decidable (SolvedAll g) := by
  unfold SolvedAll
  infer_instance

/-- A legal completion of `g`: a grid agreeing with `g` on its given
clues, assigning digits 1..9 to its empty cells, and free of conflicts in
every row, column and box. -/
def Completes (g g' : Grid) : Prop :=
  (∀ i, i < 9 → ∀ j, j < 9 →
    (g i j ≠ 0 → g' i j = g i j) ∧ (g i j = 0 → 1 ≤ g' i j ∧ g' i j ≤ 9)) ∧
  noConflict g'

theorem setCell_same (g : Grid) (r c v : Nat) : setCell g r c v r c = v := by
  simp [setCell]

theorem setCell_ne (g : Grid) (r c v i j : Nat) (h : ¬(i = r ∧ j = c)) :
    setCell g r c v i j = g i j := by
  simp [setCell, h]

theorem setCell_restore (g : Grid) (r c : Nat) (h : g r c = 0) :
    setCell g r c 0 = g := by
  funext i j
  by_cases hij : i = r ∧ j = c
  · obtain ⟨rfl, rfl⟩ := hij
    simp [setCell, h]
  · simp [setCell, hij]

theorem setCell_setCell (g : Grid) (r c v w : Nat) :
    setCell (setCell g r c v) r c w = setCell g r c w := by
  funext i j
  by_cases hij : i = r ∧ j = c <;> simp [setCell, hij]

/-- Characterization of `is_valid = true`: `num` appears nowhere in the
row, nowhere in the column, and nowhere in the 3×3 box of `(row, col)`
(boxes described by equality of the `· / 3` coordinates). -/
theorem is_valid_true_iff (g : Grid) (row col num : Nat)
    (hr : row < 9) (hc : col < 9) :
    is_valid g row col num = true ↔
      (∀ j, j < 9 → g row j ≠ num) ∧
      (∀ i, i < 9 → g i col ≠ num) ∧
      (∀ i j, i < 9 → j < 9 → i / 3 = row / 3 → j / 3 = col / 3 →
        g i j ≠ num) := by
  simp only [is_valid, Bool.and_eq_true, List.all_eq_true, List.mem_range,
    List.mem_range'_1, Bool.not_eq_eq_eq_not, Bool.not_true, beq_eq_false_iff_ne,
    ne_eq]
  constructor
  · rintro ⟨⟨h1, h2⟩, h3⟩
    refine ⟨fun j hj => h1 j hj, fun i hi => h2 i hi, fun i j hi hj hbi hbj => ?_⟩
    exact h3 i (by omega) j (by omega)
  · rintro ⟨h1, h2, h3⟩
    refine ⟨⟨fun j hj => h1 j hj, fun i hi => h2 i hi⟩, fun i hi j hj => ?_⟩
    exact h3 i j (by omega) (by omega) (by omega) (by omega)

/-- `is_valid = false` iff the digit already appears in one of the three
constraint groups of the cell. -/
theorem is_valid_false_iff (g : Grid) (row col num : Nat)
    (hr : row < 9) (hc : col < 9) :
    is_valid g row col num = false ↔
      ((∃ j, j < 9 ∧ g row j = num) ∨
       (∃ i, i < 9 ∧ g i col = num) ∨
       (∃ i j, i < 9 ∧ j < 9 ∧ i / 3 = row / 3 ∧ j / 3 = col / 3 ∧
         g i j = num)) := by
  rw [← Bool.not_eq_true, is_valid_true_iff g row col num hr hc]
  constructor
  · intro h
    by_contra hne
    push_neg at hne
    obtain ⟨hne1, hne2, hne3⟩ := hne
    exact h ⟨fun j hj => hne1 j hj, fun i hi => hne2 i hi,
      fun i j hi hj hbi hbj => hne3 i j hi hj hbi hbj⟩
  · rintro (⟨j, hj, hval⟩ | ⟨i, hi, hval⟩ | ⟨i, j, hi, hj, hbi, hbj, hval⟩)
      ⟨h1, h2, h3⟩
    · exact h1 j hj hval
    · exact h2 i hi hval
    · exact h3 i j hi hj hbi hbj hval

/-- Placing a digit `v ≠ num` (or leaving the grid unchanged on the cells
the check scans) preserves validity of `num`. -/
theorem is_valid_setCell_true (g : Grid) (i j num x y d : Nat)
    (hx : x < 9) (hy : y < 9)
    (hv : is_valid g x y d = true) (hne : num ≠ d) :
    is_valid (setCell g i j num) x y d = true := by
  rw [is_valid_true_iff _ _ _ _ hx hy] at hv ⊢
  obtain ⟨h1, h2, h3⟩ := hv
  refine ⟨fun b hb => ?_, fun a ha => ?_, fun a b ha hb hba hbb => ?_⟩
  · by_cases hc : x = i ∧ b = j
    · simpa [setCell, hc] using hne
    · rw [setCell_ne _ _ _ _ _ _ hc]; exact h1 b hb
  · by_cases hc : a = i ∧ y = j
    · simpa [setCell, hc] using hne
    · rw [setCell_ne _ _ _ _ _ _ hc]; exact h2 a ha
  · by_cases hc : a = i ∧ b = j
    · simpa [setCell, hc] using hne
    · rw [setCell_ne _ _ _ _ _ _ hc]; exact h3 a b ha hb hba hbb

/-- If the written cell `(i, j)` is outside the row, column and box of
`(x, y)`, the validity check at `(x, y)` is unchanged. -/
theorem is_valid_setCell_far (g : Grid) (i j num x y d : Nat)
    (hx : x < 9) (hy : y < 9)
    (hni : x ≠ i) (hnj : y ≠ j) (hnb : ¬(x / 3 = i / 3 ∧ y / 3 = j / 3)) :
    is_valid (setCell g i j num) x y d = is_valid g x y d := by
  have key : ∀ a b, (a = x ∨ b = y ∨ (a / 3 = x / 3 ∧ b / 3 = y / 3)) →
      a < 9 → b < 9 → setCell g i j num a b = g a b := by
    intro a b hmem ha hb
    apply setCell_ne
    rintro ⟨rfl, rfl⟩
    rcases hmem with h | h | h
    · exact hni h.symm
    · exact hnj h.symm
    · exact hnb ⟨h.1.symm, h.2.symm⟩
  rcases Bool.eq_false_or_eq_true (is_valid g x y d) with htrue | hfalse
  · rw [htrue, is_valid_true_iff _ _ _ _ hx hy]
    rw [is_valid_true_iff _ _ _ _ hx hy] at htrue
    obtain ⟨h1, h2, h3⟩ := htrue
    refine ⟨fun b hb => ?_, fun a ha => ?_, fun a b ha hb hba hbb => ?_⟩
    · rw [key x b (Or.inl rfl) hx hb]; exact h1 b hb
    · rw [key a y (Or.inr (Or.inl rfl)) ha hy]; exact h2 a ha
    · rw [key a b (Or.inr (Or.inr ⟨hba, hbb⟩)) ha hb]; exact h3 a b ha hb hba hbb
  · rw [hfalse, ← Bool.not_eq_true, is_valid_true_iff _ _ _ _ hx hy]
    rw [← Bool.not_eq_true, is_valid_true_iff _ _ _ _ hx hy] at hfalse
    intro h
    apply hfalse
    obtain ⟨h1, h2, h3⟩ := h
    refine ⟨fun b hb => ?_, fun a ha => ?_, fun a b ha hb hba hbb => ?_⟩
    · rw [← key x b (Or.inl rfl) hx hb]; exact h1 b hb
    · rw [← key a y (Or.inr (Or.inl rfl)) ha hy]; exact h2 a ha
    · rw [← key a b (Or.inr (Or.inr ⟨hba, hbb⟩)) ha hb]; exact h3 a b ha hb hba hbb

/-- C3: `is_valid(r, c, d)` returns false exactly when `d` already appears
in row `r`, column `c`, or the 3×3 box of `(r, c)` (true otherwise); on the
empty grid `is_valid(0,0,d)` is true for every digit `d`, and after placing
5 at `(0,0)` the checks `is_valid(0,1,5)`, `is_valid(1,0,5)` and
`is_valid(1,1,5)` are all false. -/
theorem c3_is_valid_spec :
    (∀ (g : Grid) (r c d : Nat), r < 9 → c < 9 →
      (is_valid g r c d = false ↔
        ((∃ j, j < 9 ∧ g r j = d) ∨
         (∃ i, i < 9 ∧ g i c = d) ∨
         (∃ i j, i < 9 ∧ j < 9 ∧ i / 3 = r / 3 ∧ j / 3 = c / 3 ∧
           g i j = d)))) ∧
    (∀ d, 1 ≤ d → d ≤ 9 → is_valid zeroGrid 0 0 d = true) ∧
    (is_valid fiveGrid 0 1 5 = false ∧ is_valid fiveGrid 1 0 5 = false ∧
      is_valid fiveGrid 1 1 5 = false) := by
  refine ⟨fun g r c d hr hc => is_valid_false_iff g r c d hr hc, ?_, ?_⟩
  · intro d h1 h9
    interval_cases d <;> decide
  · refine ⟨by decide, by decide, by decide⟩

/-- Witness for C3 at concrete inputs: instantiating the characterization
on the five-grid at `(1, 1)` with digit 5. -/
theorem c3_is_valid_spec_witness :
    (is_valid fiveGrid 1 1 5 = false ↔
      ((∃ j, j < 9 ∧ fiveGrid 1 j = 5) ∨
       (∃ i, i < 9 ∧ fiveGrid i 1 = 5) ∨
       (∃ i j, i < 9 ∧ j < 9 ∧ i / 3 = 1 / 3 ∧ j / 3 = 1 / 3 ∧
         fiveGrid i j = 5))) :=
  c3_is_valid_spec.1 fiveGrid 1 1 5 (by decide) (by decide)

theorem setPoss_same (p : Poss) (r c : Nat) (s : List Nat) :
    setPoss p r c s r c = s := by
  simp [setPoss]

theorem setPoss_ne (p : Poss) (r c : Nat) (s : List Nat) (i j : Nat)
    (h : ¬(i = r ∧ j = c)) : setPoss p r c s i j = p i j := by
  simp [setPoss, h]

theorem filter_ne_idem (l : List Nat) (num : Nat) :
    (l.filter (fun d => d ≠ num)).filter (fun d => d ≠ num)
      = l.filter (fun d => d ≠ num) := by
  rw [List.filter_filter]
  apply List.filter_congr
  intro a _
  simp

/-- Effect of a fold that filters the possibility set of each cell in a
list of cells: touched cells are filtered, untouched cells are unchanged. -/
theorem foldl_filter_cells (num : Nat) (cells : List (Nat × Nat)) :
    ∀ (p : Poss) (x y : Nat),
      (cells.foldl
        (fun q ij => setPoss q ij.1 ij.2 ((q ij.1 ij.2).filter (fun d => d ≠ num)))
        p) x y
      = if (x, y) ∈ cells then (p x y).filter (fun d => d ≠ num) else p x y := by
  induction cells with
  | nil => intro p x y; simp
  | cons a l ih =>
    intro p x y
    rw [List.foldl_cons, ih]
    have hmem_cons : ((x, y) ∈ a :: l) ↔ ((x = a.1 ∧ y = a.2) ∨ (x, y) ∈ l) := by
      constructor
      · intro h
        rcases List.mem_cons.mp h with h | h
        · left; exact ⟨congrArg Prod.fst h, congrArg Prod.snd h⟩
        · right; exact h
      · rintro (⟨h1, h2⟩ | h)
        · subst h1; subst h2
          exact List.mem_cons_self _ _
        · exact List.mem_cons_of_mem _ h
    by_cases hxy : x = a.1 ∧ y = a.2
    · have hval : setPoss p a.1 a.2 ((p a.1 a.2).filter (fun d => d ≠ num)) x y
          = (p x y).filter (fun d => d ≠ num) := by
        obtain ⟨rfl, rfl⟩ := hxy
        exact setPoss_same p a.1 a.2 _
      rw [hval]
      by_cases hmem : (x, y) ∈ l
      · simp only [hmem, if_pos, hmem_cons.mpr (Or.inl hxy), filter_ne_idem]
      · simp only [hmem, if_neg, if_pos (hmem_cons.mpr (Or.inl hxy)), if_false]
    · rw [setPoss_ne _ _ _ _ _ _ hxy]
      by_cases hmem : (x, y) ∈ l
      · simp only [hmem, if_pos, if_pos (hmem_cons.mpr (Or.inr hmem))]
      · have : ¬ ((x, y) ∈ a :: l) := fun h => by
          rcases hmem_cons.mp h with h | h
          · exact hxy h
          · exact hmem h
        simp only [hmem, if_neg, this, if_false]

/-- A nested fold over a row list and a column list is a fold over the
flattened list of cell pairs. -/
theorem foldl_nested_eq_flat {β : Type} (step : β → Nat × Nat → β)
    (l2 : List Nat) :
    ∀ (l1 : List Nat) (b : β),
      l1.foldl (fun q i => l2.foldl (fun q2 j => step q2 (i, j)) q) b
        = (l1.flatMap (fun i => l2.map (fun j => (i, j)))).foldl step b := by
  intro l1
  induction l1 with
  | nil => intro b; rfl
  | cons a l ih =>
    intro b
    rw [List.foldl_cons, ih, List.flatMap_cons, List.foldl_append,
      List.foldl_map]

theorem ite_filter_or {α : Type} (P1 P2 P3 : Prop)
    [Decidable P1] [Decidable P2] [Decidable P3] (F : α → α) (l : α)
    (hidem : F (F l) = F l) :
    (if P3 then F (if P2 then F (if P1 then F l else l) else if P1 then F l else l)
     else if P2 then F (if P1 then F l else l) else if P1 then F l else l)
      = if P1 ∨ P2 ∨ P3 then F l else l := by
  by_cases h1 : P1 <;> by_cases h2 : P2 <;> by_cases h3 : P3 <;>
    simp [h1, h2, h3, hidem]

/-- Pointwise description of `update_possibilities`: the updated cell is
cleared; every other cell of row `row`, column `col` or the box is
filtered; everything else is untouched. -/
theorem update_possibilities_apply (p : Poss) (row col num x y : Nat) :
    update_possibilities p row col num x y =
      if x = row ∧ y = col then []
      else if (x = row ∧ y < 9) ∨ (x < 9 ∧ y = col) ∨
        (3 * (row / 3) ≤ x ∧ x < 3 * (row / 3) + 3 ∧
         3 * (col / 3) ≤ y ∧ y < 3 * (col / 3) + 3) then
        (p x y).filter (fun d => d ≠ num)
      else p x y := by
  unfold update_possibilities
  have hrow : ∀ (q : Poss),
      ((List.range 9).foldl
        (fun q j => setPoss q row j ((q row j).filter (fun d => d ≠ num))) q) x y
      = if x = row ∧ y < 9 then (q x y).filter (fun d => d ≠ num) else q x y := by
    intro q
    have := List.foldl_map (fun j => ((row, j) : Nat × Nat))
      (fun q (ij : Nat × Nat) =>
        setPoss q ij.1 ij.2 ((q ij.1 ij.2).filter (fun d => d ≠ num)))
      (List.range 9) q
    rw [← this, foldl_filter_cells]
    congr 1
    simp only [List.mem_map, List.mem_range, Prod.ext_iff, eq_iff_iff]
    aesop
  have hcol : ∀ (q : Poss),
      ((List.range 9).foldl
        (fun q i => setPoss q i col ((q i col).filter (fun d => d ≠ num))) q) x y
      = if x < 9 ∧ y = col then (q x y).filter (fun d => d ≠ num) else q x y := by
    intro q
    have := List.foldl_map (fun i => ((i, col) : Nat × Nat))
      (fun q (ij : Nat × Nat) =>
        setPoss q ij.1 ij.2 ((q ij.1 ij.2).filter (fun d => d ≠ num)))
      (List.range 9) q
    rw [← this, foldl_filter_cells]
    congr 1
    simp only [List.mem_map, List.mem_range, Prod.ext_iff, eq_iff_iff]
    aesop
  have hbox : ∀ (q : Poss),
      ((List.range' (3 * (row / 3)) 3).foldl
        (fun q i => (List.range' (3 * (col / 3)) 3).foldl
          (fun q2 j => setPoss q2 i j ((q2 i j).filter (fun d => d ≠ num))) q) q) x y
      = if 3 * (row / 3) ≤ x ∧ x < 3 * (row / 3) + 3 ∧
          3 * (col / 3) ≤ y ∧ y < 3 * (col / 3) + 3 then
          (q x y).filter (fun d => d ≠ num) else q x y := by
    intro q
    rw [foldl_nested_eq_flat
      (fun q2 (ij : Nat × Nat) =>
        setPoss q2 ij.1 ij.2 ((q2 ij.1 ij.2).filter (fun d => d ≠ num)))
      (List.range' (3 * (col / 3)) 3) (List.range' (3 * (row / 3)) 3) q,
      foldl_filter_cells]
    congr 1
    simp only [List.mem_flatMap, List.mem_map, List.mem_range'_1, Prod.ext_iff,
      eq_iff_iff]
    aesop
  by_cases hxy : x = row ∧ y = col
  · obtain ⟨rfl, rfl⟩ := hxy
    simp [setPoss_same]
  · rw [setPoss_ne _ _ _ _ _ _ hxy, hbox, hcol, hrow, if_neg hxy]
    exact ite_filter_or (x = row ∧ y < 9) (x < 9 ∧ y = col)
      (3 * (row / 3) ≤ x ∧ x < 3 * (row / 3) + 3 ∧
        3 * (col / 3) ≤ y ∧ y < 3 * (col / 3) + 3)
      (List.filter (fun d => d ≠ num)) (p x y) (filter_ne_idem (p x y) num)

/-- Membership in an updated possibility set implies membership in the
original one (updates only remove candidates). -/
theorem update_possibilities_subset (p : Poss) (row col num x y d : Nat)
    (h : d ∈ update_possibilities p row col num x y) : d ∈ p x y := by
  rw [update_possibilities_apply] at h
  by_cases hxy : x = row ∧ y = col
  · simp [hxy] at h
  · rw [if_neg hxy] at h
    by_cases hcond : (x = row ∧ y < 9) ∨ (x < 9 ∧ y = col) ∨
        (3 * (row / 3) ≤ x ∧ x < 3 * (row / 3) + 3 ∧
         3 * (col / 3) ≤ y ∧ y < 3 * (col / 3) + 3)
    · rw [if_pos hcond] at h
      exact (List.mem_filter.mp h).1
    · rwa [if_neg hcond] at h

/-- C7: after `update_possibilities(matrix, r, c, d)`, the digit `d` is
absent from every possibility set of row `r`, column `c`, and the box of
`(r, c)`; the set of `(r, c)` itself is empty; all other sets are
unchanged; applying the same update twice equals applying it once. -/
theorem c7_update_possibilities_spec (p : Poss) (r c num : Nat)
    (hr : r < 9) (hc : c < 9) :
    (∀ j, j < 9 → num ∉ update_possibilities p r c num r j) ∧
    (∀ i, i < 9 → num ∉ update_possibilities p r c num i c) ∧
    (∀ i j, i < 9 → j < 9 → i / 3 = r / 3 → j / 3 = c / 3 →
      num ∉ update_possibilities p r c num i j) ∧
    update_possibilities p r c num r c = [] ∧
    (∀ i j, i < 9 → j < 9 → i ≠ r → j ≠ c →
      ¬(i / 3 = r / 3 ∧ j / 3 = c / 3) →
      update_possibilities p r c num i j = p i j) ∧
    update_possibilities (update_possibilities p r c num) r c num
      = update_possibilities p r c num := by
  have habsent : ∀ x y,
      (x = r ∧ y < 9) ∨ (x < 9 ∧ y = c) ∨
        (3 * (r / 3) ≤ x ∧ x < 3 * (r / 3) + 3 ∧
         3 * (c / 3) ≤ y ∧ y < 3 * (c / 3) + 3) →
      num ∉ update_possibilities p r c num x y := by
    intro x y hcond hmem
    rw [update_possibilities_apply] at hmem
    by_cases hxy : x = r ∧ y = c
    · simp [hxy] at hmem
    · rw [if_neg hxy, if_pos hcond, List.mem_filter] at hmem
      simp at hmem
  refine ⟨?_, ?_, ?_, ?_, ?_, ?_⟩
  · intro j hj
    exact habsent r j (Or.inl ⟨rfl, hj⟩)
  · intro i hi
    exact habsent i c (Or.inr (Or.inl ⟨hi, rfl⟩))
  · intro i j hi hj hbi hbj
    exact habsent i j (Or.inr (Or.inr (by omega)))
  · rw [update_possibilities_apply]
    simp
  · intro i j hi hj hir hjc hbox
    rw [update_possibilities_apply, if_neg (by tauto), if_neg (by omega)]
  · funext x y
    rw [update_possibilities_apply, update_possibilities_apply p r c num x y]
    by_cases hxy : x = r ∧ y = c
    · simp [hxy]
    · by_cases hcond : (x = r ∧ y < 9) ∨ (x < 9 ∧ y = c) ∨
          (3 * (r / 3) ≤ x ∧ x < 3 * (r / 3) + 3 ∧
           3 * (c / 3) ≤ y ∧ y < 3 * (c / 3) + 3)
      · simp only [if_neg hxy, if_pos hcond, filter_ne_idem]
      · simp only [if_neg hxy, if_neg hcond]

/-- Witness for C7: the update theorem instantiated at a concrete matrix
where every cell holds all nine candidates, updating `(0, 0)` with 5. -/
theorem c7_update_possibilities_spec_witness :
    (0 : Nat) < 9 ∧
    ((∀ j, j < 9 →
        5 ∉ update_possibilities (fun _ _ => List.range' 1 9) 0 0 5 0 j) ∧
     (∀ i, i < 9 →
        5 ∉ update_possibilities (fun _ _ => List.range' 1 9) 0 0 5 i 0) ∧
     (∀ i j, i < 9 → j < 9 → i / 3 = 0 / 3 → j / 3 = 0 / 3 →
        5 ∉ update_possibilities (fun _ _ => List.range' 1 9) 0 0 5 i j) ∧
     update_possibilities (fun _ _ => List.range' 1 9) 0 0 5 0 0 = [] ∧
     (∀ i j, i < 9 → j < 9 → i ≠ 0 → j ≠ 0 →
        ¬(i / 3 = 0 / 3 ∧ j / 3 = 0 / 3) →
        update_possibilities (fun _ _ => List.range' 1 9) 0 0 5 i j
          = List.range' 1 9) ∧
     update_possibilities
        (update_possibilities (fun _ _ => List.range' 1 9) 0 0 5) 0 0 5
      = update_possibilities (fun _ _ => List.range' 1 9) 0 0 5) :=
  ⟨by decide,
    c7_update_possibilities_spec (fun _ _ => List.range' 1 9) 0 0 5
      (by decide) (by decide)⟩

theorem mem_allCells (i j : Nat) : (i, j) ∈ allCells ↔ i < 9 ∧ j < 9 := by
  simp only [allCells, List.mem_flatMap, List.mem_map, List.mem_range,
    Prod.mk.injEq]
  constructor
  · rintro ⟨a, ha, b, hb, rfl, rfl⟩
    exact ⟨ha, hb⟩
  · rintro ⟨hi, hj⟩
    exact ⟨i, hi, j, hj, rfl, rfl⟩

theorem allCells_sorted :
    List.Pairwise (fun p q : Nat × Nat => p.1 * 9 + p.2 < q.1 * 9 + q.2)
      allCells := by decide

theorem possCount_lt_ten (g : Grid) (i j : Nat) : possCount g i j < 10 :=
  Nat.lt_of_le_of_lt (List.countP_le_length _) (by decide)

theorem mcv_fold_inv (g : Grid) (l : List (Nat × Nat)) :
    McvInv g l (l.foldl (mcvStep g) (10, none)) := by
  induction l using List.reverseRecOn with
  | nil => exact Or.inl ⟨rfl, by simp⟩
  | append_singleton l a ih =>
    rw [List.foldl_append, List.foldl_cons, List.foldl_nil]
    rcases ih with ⟨hacc, hnone⟩ | ⟨x, l1, l2, rfl, hacc, hempty, hl1, hl2⟩
    · rw [hacc]
      by_cases ha : g a.1 a.2 = 0
      · right
        refine ⟨a, l, [], rfl, ?_, ha, ?_, by simp⟩
        · simp [mcvStep, ha, possCount_lt_ten g a.1 a.2]
        · intro ij hij hempty
          exact absurd hempty (hnone ij hij)
      · left
        refine ⟨by simp [mcvStep, ha], fun ij hij => ?_⟩
        rcases List.mem_append.mp hij with h | h
        · exact hnone ij h
        · rw [List.mem_singleton.mp h]; exact ha
    · rw [hacc]
      by_cases ha : g a.1 a.2 = 0
      · by_cases hlt : possCount g a.1 a.2 < possCount g x.1 x.2
        · right
          refine ⟨a, l1 ++ x :: l2, [], by simp, by simp [mcvStep, ha, hlt], ha,
            ?_, by simp⟩
          intro ij hij hem
          rcases List.mem_append.mp hij with h | h
          · exact Nat.lt_trans hlt (hl1 ij h hem)
          · rcases List.mem_cons.mp h with rfl | h
            · exact hlt
            · exact Nat.lt_of_lt_of_le hlt (hl2 ij h hem)
        · right
          refine ⟨x, l1, l2 ++ [a], by simp, by simp [mcvStep, ha, hlt], hempty,
            hl1, ?_⟩
          intro ij hij hem
          rcases List.mem_append.mp hij with h | h
          · exact hl2 ij h hem
          · rw [List.mem_singleton.mp h] at hem ⊢
            exact Nat.le_of_not_lt hlt
      · right
        refine ⟨x, l1, l2 ++ [a], by simp, by simp [mcvStep, ha], hempty,
          hl1, ?_⟩
        intro ij hij hem
        rcases List.mem_append.mp hij with h | h
        · exact hl2 ij h hem
        · rw [List.mem_singleton.mp h] at hem
          exact absurd hem ha

theorem fmcc_none_iff (g : Grid) :
    find_most_constrained_cell g = none ↔
      ∀ i j, i < 9 → j < 9 → g i j ≠ 0 := by
  unfold find_most_constrained_cell
  rcases mcv_fold_inv g allCells with ⟨hacc, hnone⟩ | ⟨x, l1, l2, hdec, hacc, hempty, _, _⟩
  · rw [hacc]
    constructor
    · intro _ i j hi hj
      exact hnone (i, j) ((mem_allCells i j).mpr ⟨hi, hj⟩)
    · intro _; rfl
  · rw [hacc]
    simp only [reduceCtorEq, false_iff, not_forall]
    push_neg
    have hxmem : x ∈ allCells := by
      rw [hdec]; exact List.mem_append.mpr (Or.inr (List.mem_cons_self _ _))
    have := (mem_allCells x.1 x.2).mp (by simpa using hxmem)
    exact ⟨x.1, x.2, this.1, this.2, hempty⟩

theorem fmcc_some_spec (g : Grid) (r c : Nat)
    (h : find_most_constrained_cell g = some (r, c)) :
    r < 9 ∧ c < 9 ∧ g r c = 0 ∧
    (∀ i j, i < 9 → j < 9 → g i j = 0 →
      possCount g r c ≤ possCount g i j) ∧
    (∀ i j, i < 9 → j < 9 → g i j = 0 → i * 9 + j < r * 9 + c →
      possCount g r c < possCount g i j) := by
  unfold find_most_constrained_cell at h
  rcases mcv_fold_inv g allCells with ⟨hacc, _⟩ | ⟨x, l1, l2, hdec, hacc, hempty, hl1, hl2⟩
  · rw [hacc] at h; cases h
  · rw [hacc] at h
    simp only [Option.some.injEq] at h
    subst h
    have hxmem : (r, c) ∈ allCells := by
      rw [hdec]; exact List.mem_append.mpr (Or.inr (List.mem_cons_self _ _))
    obtain ⟨hr, hc⟩ := (mem_allCells r c).mp hxmem
    have hsorted := allCells_sorted
    rw [hdec] at hsorted
    obtain ⟨hs1, hs2, hs3⟩ := List.pairwise_append.mp hsorted
    have hbefore : ∀ y ∈ l1, y.1 * 9 + y.2 < r * 9 + c := by
      intro y hy
      exact hs3 y hy (r, c) (List.mem_cons_self _ _)
    have hafter : ∀ y ∈ l2, r * 9 + c < y.1 * 9 + y.2 := by
      intro y hy
      exact (List.pairwise_cons.mp hs2).1 y hy
    refine ⟨hr, hc, hempty, ?_, ?_⟩
    · intro i j hi hj hem
      have : (i, j) ∈ allCells := (mem_allCells i j).mpr ⟨hi, hj⟩
      rw [hdec] at this
      rcases List.mem_append.mp this with hmem | hmem
      · exact Nat.le_of_lt (hl1 (i, j) hmem hem)
      · rcases List.mem_cons.mp hmem with heq | hmem
        · rw [show i = r from congrArg Prod.fst heq,
            show j = c from congrArg Prod.snd heq]
        · exact hl2 (i, j) hmem hem
    · intro i j hi hj hem hkey
      have : (i, j) ∈ allCells := (mem_allCells i j).mpr ⟨hi, hj⟩
      rw [hdec] at this
      rcases List.mem_append.mp this with hmem | hmem
      · exact hl1 (i, j) hmem hem
      · rcases List.mem_cons.mp hmem with heq | hmem
        · rw [show i = r from congrArg Prod.fst heq,
            show j = c from congrArg Prod.snd heq] at hkey
          omega
        · have := hafter (i, j) hmem
          omega

/-- C6: `find_most_constrained_cell()` returns none exactly when the grid
has no empty cell; otherwise it returns an empty cell of minimal candidate
count (candidates recounted from the grid via `is_valid`), and among the
empty cells of that minimal count the one earliest in row-major order
(position `i*9 + j`). -/
theorem c6_find_most_constrained_cell_spec (g : Grid) :
    (find_most_constrained_cell g = none ↔
      ∀ i j, i < 9 → j < 9 → g i j ≠ 0) ∧
    (∀ r c, find_most_constrained_cell g = some (r, c) →
      r < 9 ∧ c < 9 ∧ g r c = 0 ∧
      (∀ i j, i < 9 → j < 9 → g i j = 0 →
        possCount g r c ≤ possCount g i j) ∧
      (∀ i j, i < 9 → j < 9 → g i j = 0 →
        possCount g i j = possCount g r c → r * 9 + c ≤ i * 9 + j)) := by
  refine ⟨fmcc_none_iff g, fun r c h => ?_⟩
  obtain ⟨hr, hc, hempty, hmin, hfirst⟩ := fmcc_some_spec g r c h
  refine ⟨hr, hc, hempty, hmin, fun i j hi hj hem heq => ?_⟩
  by_contra hlt
  have := hfirst i j hi hj hem (by omega)
  omega

/-- One round of the `for num` loop restores the board it received
whenever the whole loop fails, provided recursive calls restore theirs. -/
theorem btTry_restore (fuel : Nat) (row col : Nat)
    (hrec : ∀ b st bt, (solve_smart_backtracking fuel b st bt).1 = false →
      (solve_smart_backtracking fuel b st bt).2.1 = b) :
    ∀ (l : List Nat) (board : Grid) (st bt : Nat), board row col = 0 →
      (btTry (solve_smart_backtracking fuel) row col board st bt l).1 = false →
      (btTry (solve_smart_backtracking fuel) row col board st bt l).2.1 = board := by
  intro l
  induction l with
  | nil => intro board st bt _ _; rfl
  | cons num rest ih =>
    intro board st bt h0 hfalse
    rw [btTry] at hfalse ⊢
    by_cases hv : is_valid board row col num
    · rw [if_pos hv] at hfalse ⊢
      rcases hres : solve_smart_backtracking fuel (setCell board row col num) st bt
        with ⟨b1, b2, st2, bt2⟩
      rw [hres] at hfalse
      cases b1 with
      | true => simp at hfalse
      | false =>
        have hb2 : b2 = setCell board row col num := by
          have h1 := hrec (setCell board row col num) st bt (by rw [hres])
          rw [hres] at h1
          exact h1
        have hrestore : setCell b2 row col 0 = board := by
          rw [hb2, setCell_setCell, setCell_restore board row col h0]
        have hf2 : (btTry (solve_smart_backtracking fuel) row col
            (setCell b2 row col 0) st2 (bt2 + 1) rest).1 = false := hfalse
        show (btTry (solve_smart_backtracking fuel) row col
            (setCell b2 row col 0) st2 (bt2 + 1) rest).2.1 = board
        rw [hrestore] at hf2 ⊢
        exact ih board st2 (bt2 + 1) h0 hf2
    · rw [if_neg hv] at hfalse ⊢
      exact ih board st bt h0 hfalse

/-- Whenever `solve_smart_backtracking` returns false, the grid it leaves
behind is exactly the grid it was entered with: every placement made along
the failed search has been reset to 0. -/
theorem ssb_restore : ∀ (fuel : Nat) (b : Grid) (st bt : Nat),
    (solve_smart_backtracking fuel b st bt).1 = false →
    (solve_smart_backtracking fuel b st bt).2.1 = b := by
  intro fuel
  induction fuel with
  | zero => intro b st bt _; rfl
  | succ fuel ih =>
    intro b st bt hfalse
    rw [solve_smart_backtracking] at hfalse ⊢
    rcases hm : find_most_constrained_cell b with _ | ⟨r, c⟩
    · rw [hm] at hfalse
    · rw [hm] at hfalse
      have h0 : b r c = 0 := (fmcc_some_spec b r c hm).2.2.1
      exact btTry_restore fuel r c ih (List.range' 1 9) b (st + 1) bt h0 hfalse

/-- C10: a failed invocation of `solve_smart_backtracking()` leaves the
grid exactly as it found it — the search is atomic on failure. -/
theorem c10_backtracking_failure_restores (fuel : Nat) (g : Grid) (st bt : Nat)
    (h : (solve_smart_backtracking fuel g st bt).1 = false) :
    (solve_smart_backtracking fuel g st bt).2.1 = g :=
  ssb_restore fuel g st bt h

/-- Witness for C10: the search fails on the unsolvable `g2Grid` and hands
back that very grid. -/
theorem c10_backtracking_failure_restores_witness :
    (solve_smart_backtracking 82 g2Grid 0 0).1 = false ∧
    (solve_smart_backtracking 82 g2Grid 0 0).2.1 = g2Grid :=
  ⟨by decide, c10_backtracking_failure_restores 82 g2Grid 0 0 (by decide)⟩

theorem Extends.refl (g : Grid) : Extends g g := fun _ _ _ => rfl

theorem Extends.trans {g1 g2 g3 : Grid} (h12 : Extends g1 g2)
    (h23 : Extends g2 g3) : Extends g1 g3 := by
  intro i j h
  rw [h23 i j (by rw [h12 i j h]; exact h), h12 i j h]

theorem Extends_setCell (g : Grid) (r c num : Nat) (h0 : g r c = 0) :
    Extends g (setCell g r c num) := by
  intro i j h
  by_cases hij : i = r ∧ j = c
  · obtain ⟨rfl, rfl⟩ := hij
    exact absurd h0 h
  · exact setCell_ne _ _ _ _ _ _ hij

theorem InRange_setCell (g : Grid) (r c num : Nat) (hg : InRange g)
    (hnum : num ≤ 9) : InRange (setCell g r c num) := by
  intro i hi j hj
  by_cases hij : i = r ∧ j = c
  · obtain ⟨rfl, rfl⟩ := hij
    rw [setCell_same]; exact hnum
  · rw [setCell_ne _ _ _ _ _ _ hij]; exact hg i hi j hj

/-- Placing a digit that passes `is_valid` at an in-range cell keeps the
grid conflict-free. -/
theorem noConflict_setCell (g : Grid) (r c num : Nat) (hr : r < 9)
    (hc : c < 9) (h1 : 1 ≤ num) (hv : is_valid g r c num = true)
    (hnc : noConflict g) : noConflict (setCell g r c num) := by
  obtain ⟨hrow, hcol, hbox⟩ := (is_valid_true_iff g r c num hr hc).mp hv
  rintro i hi j hj a ha b hb ⟨hne, hpeer, hnz⟩
  by_cases hij : i = r ∧ j = c
  · obtain ⟨rfl, rfl⟩ := hij
    have hab : ¬(a = i ∧ b = j) := by
      rintro ⟨rfl, rfl⟩
      exact hne rfl
    rw [setCell_same] at hnz ⊢
    rw [setCell_ne _ _ _ _ _ _ hab]
    rcases hpeer with rfl | rfl | ⟨hba, hbb⟩
    · exact fun h => hrow b hb h.symm
    · exact fun h => hcol a ha h.symm
    · exact fun h => hbox a b ha hb hba.symm hbb.symm h.symm
  · rw [setCell_ne _ _ _ _ _ _ hij] at hnz ⊢
    by_cases hab : a = r ∧ b = c
    · obtain ⟨rfl, rfl⟩ := hab
      rw [setCell_same]
      rcases hpeer with rfl | rfl | ⟨hba, hbb⟩
      · exact hrow j hj
      · exact hcol i hi
      · exact hbox i j hi hj hba hbb
    · rw [setCell_ne _ _ _ _ _ _ hab]
      exact hnc i hi j hj a ha b hb ⟨hne, hpeer, hnz⟩

/-- Outcome of the digit loop on success, given inductive hypotheses about
the recursive calls: the final board is a full, conflict-free extension of
the loop's input board. -/
theorem btTry_sound (fuel row col : Nat) (hrow : row < 9) (hcol : col < 9)
    (hrec : ∀ b st bt, InRange b → noConflict b →
      (solve_smart_backtracking fuel b st bt).1 = true →
      InRange (solve_smart_backtracking fuel b st bt).2.1 ∧
      noConflict (solve_smart_backtracking fuel b st bt).2.1 ∧
      FullBoard (solve_smart_backtracking fuel b st bt).2.1 ∧
      Extends b (solve_smart_backtracking fuel b st bt).2.1) :
    ∀ (l : List Nat) (board : Grid) (st bt : Nat),
      (∀ num ∈ l, 1 ≤ num ∧ num ≤ 9) →
      InRange board → noConflict board → board row col = 0 →
      (btTry (solve_smart_backtracking fuel) row col board st bt l).1 = true →
      InRange (btTry (solve_smart_backtracking fuel) row col board st bt l).2.1 ∧
      noConflict (btTry (solve_smart_backtracking fuel) row col board st bt l).2.1 ∧
      FullBoard (btTry (solve_smart_backtracking fuel) row col board st bt l).2.1 ∧
      Extends board
        (btTry (solve_smart_backtracking fuel) row col board st bt l).2.1 := by
  intro l
  induction l with
  | nil =>
    intro board st bt _ _ _ _ htrue
    simp [btTry] at htrue
  | cons num rest ih =>
    intro board st bt hnums hir hnc h0 htrue
    rw [btTry] at htrue ⊢
    by_cases hv : is_valid board row col num
    · rw [if_pos hv] at htrue ⊢
      rcases hres : solve_smart_backtracking fuel (setCell board row col num) st bt
        with ⟨b1, b2, st2, bt2⟩
      rw [hres] at htrue
      obtain ⟨hnum1, hnum9⟩ := hnums num (List.mem_cons_self _ _)
      cases b1 with
      | true =>
        have hir2 := InRange_setCell board row col num hir hnum9
        have hnc2 := noConflict_setCell board row col num hrow hcol hnum1 hv hnc
        have hprops := hrec (setCell board row col num) st bt hir2 hnc2
          (by rw [hres])
        rw [hres] at hprops
        exact ⟨hprops.1, hprops.2.1, hprops.2.2.1,
          (Extends_setCell board row col num h0).trans hprops.2.2.2⟩
      | false =>
        have hb2 : b2 = setCell board row col num := by
          have h1 := ssb_restore fuel (setCell board row col num) st bt
            (by rw [hres])
          rw [hres] at h1
          exact h1
        have hrestore : setCell b2 row col 0 = board := by
          rw [hb2, setCell_setCell, setCell_restore board row col h0]
        have hf2 : (btTry (solve_smart_backtracking fuel) row col
            (setCell b2 row col 0) st2 (bt2 + 1) rest).1 = true := htrue
        rw [hrestore] at hf2
        have hgoal : InRange (btTry (solve_smart_backtracking fuel) row col
              (setCell b2 row col 0) st2 (bt2 + 1) rest).2.1 ∧
            noConflict (btTry (solve_smart_backtracking fuel) row col
              (setCell b2 row col 0) st2 (bt2 + 1) rest).2.1 ∧
            FullBoard (btTry (solve_smart_backtracking fuel) row col
              (setCell b2 row col 0) st2 (bt2 + 1) rest).2.1 ∧
            Extends board (btTry (solve_smart_backtracking fuel) row col
              (setCell b2 row col 0) st2 (bt2 + 1) rest).2.1 := by
          rw [hrestore]
          exact ih board st2 (bt2 + 1)
            (fun n hn => hnums n (List.mem_cons_of_mem _ hn)) hir hnc h0 hf2
        exact hgoal
    · rw [if_neg hv] at htrue ⊢
      exact ih board st bt (fun n hn => hnums n (List.mem_cons_of_mem _ hn))
        hir hnc h0 htrue

/-- When `solve_smart_backtracking` succeeds on a conflict-free in-range
board, the board it leaves is full, still conflict-free, in range, and
extends the input board. -/
theorem ssb_sound : ∀ (fuel : Nat) (b : Grid) (st bt : Nat),
    InRange b → noConflict b →
    (solve_smart_backtracking fuel b st bt).1 = true →
    InRange (solve_smart_backtracking fuel b st bt).2.1 ∧
    noConflict (solve_smart_backtracking fuel b st bt).2.1 ∧
    FullBoard (solve_smart_backtracking fuel b st bt).2.1 ∧
    Extends b (solve_smart_backtracking fuel b st bt).2.1 := by
  intro fuel
  induction fuel with
  | zero =>
    intro b st bt _ _ htrue
    simp [solve_smart_backtracking] at htrue
  | succ fuel ih =>
    intro b st bt hir hnc htrue
    rw [solve_smart_backtracking] at htrue ⊢
    rcases hm : find_most_constrained_cell b with _ | ⟨r, c⟩
    · have hfull : FullBoard b := by
        intro i hi j hj
        exact (fmcc_none_iff b).mp hm i j hi hj
      exact ⟨hir, hnc, hfull, Extends.refl b⟩
    · rw [hm] at htrue
      obtain ⟨hr, hc, h0, _, _⟩ := fmcc_some_spec b r c hm
      exact btTry_sound fuel r c hr hc ih (List.range' 1 9) b (st + 1) bt
        (fun n hn => by
          have := List.mem_range'_1.mp hn
          omega) hir hnc h0 htrue

/-- Pigeonhole for one constraint group: nine pairwise distinct values in
1..9 hit each digit of 1..9 exactly once. -/
theorem countP_group_eq_one (f : Nat → Nat)
    (hinj : ∀ a, a < 9 → ∀ b, b < 9 → a ≠ b → f a ≠ f b)
    (hrange : ∀ a, a < 9 → 1 ≤ f a ∧ f a ≤ 9)
    (d : Nat) (hd1 : 1 ≤ d) (hd9 : d ≤ 9) :
    (List.range 9).countP (fun k => f k == d) = 1 := by
  have hnd : ((List.range 9).map f).Nodup := by
    refine List.Nodup.map_on ?_ (List.nodup_range 9)
    intro x hx y hy hfeq
    by_contra hne
    exact hinj x (List.mem_range.mp hx) y (List.mem_range.mp hy) hne hfeq
  have hsub : (List.range 9).map f ⊆ List.range' 1 9 := by
    intro x hx
    obtain ⟨a, ha, rfl⟩ := List.mem_map.mp hx
    have := hrange a (List.mem_range.mp ha)
    exact List.mem_range'_1.mpr ⟨this.1, by omega⟩
  have hperm : ((List.range 9).map f).Perm (List.range' 1 9) :=
    (List.subperm_of_subset hnd hsub).perm_of_length_le (by simp)
  have h1 : (List.range 9).countP (fun k => f k == d)
      = ((List.range 9).map f).countP (fun x => x == d) := by
    rw [List.countP_map]
    rfl
  rw [h1, hperm.countP_eq, ← List.count_eq_countP,
    List.count_eq_one_of_mem (List.nodup_range' 1 9)
      (List.mem_range'_1.mpr ⟨hd1, by omega⟩)]

/-- A full, in-range, conflict-free grid is solved: each group holds each
digit exactly once. -/
theorem solvedAll_of_noConflict (g : Grid) (hf : FullBoard g)
    (hir : InRange g) (hnc : noConflict g) : SolvedAll g := by
  have hcell : ∀ i, i < 9 → ∀ j, j < 9 → 1 ≤ g i j ∧ g i j ≤ 9 := by
    intro i hi j hj
    have h1 := hf i hi j hj
    have h2 := hir i hi j hj
    omega
  refine ⟨hcell, ?_, ?_, ?_⟩
  · intro i hi d hd9 hd1
    refine countP_group_eq_one (fun j => g i j) ?_ (fun a ha => hcell i hi a ha)
      d hd1 hd9
    intro a ha b hb hne
    exact hnc i hi a ha i hi b hb ⟨by simp [hne], Or.inl rfl, hf i hi a ha⟩
  · intro j hj d hd9 hd1
    refine countP_group_eq_one (fun i => g i j) ?_ (fun a ha => hcell a ha j hj)
      d hd1 hd9
    intro a ha b hb hne
    exact hnc a ha j hj b hb j hj
      ⟨by simp [hne], Or.inr (Or.inl rfl), hf a ha j hj⟩
  · intro b hb d hd9 hd1
    have hrow : ∀ k, k < 9 → 3 * (b / 3) + k / 3 < 9 := by intro k hk; omega
    have hcol : ∀ k, k < 9 → 3 * (b % 3) + k % 3 < 9 := by intro k hk; omega
    refine countP_group_eq_one
      (fun k => g (3 * (b / 3) + k / 3) (3 * (b % 3) + k % 3)) ?_
      (fun a ha => hcell _ (hrow a ha) _ (hcol a ha)) d hd1 hd9
    intro x hx y hy hne
    refine hnc _ (hrow x hx) _ (hcol x hx) _ (hrow y hy) _ (hcol y hy)
      ⟨?_, ?_, hf _ (hrow x hx) _ (hcol x hx)⟩
    · simp only [ne_eq, Prod.mk.injEq, not_and]
      intro h1 h2
      omega
    · right; right
      constructor <;> omega

theorem StepRel_rfl (s : PState) : StepRel s s :=
  ⟨fun h => ⟨h, Nat.le_refl _, fun hp => Or.inl hp⟩,
   fun h => ⟨h, Extends.refl _⟩, fun _ => rfl⟩

theorem StepRel_trans {s t u : PState} (h1 : StepRel s t) (h2 : StepRel t u) :
    StepRel s u := by
  refine ⟨fun hPR => ?_, fun hG => ?_, fun hF => ?_⟩
  · obtain ⟨hPRt, hle1, hp1⟩ := h1.1 hPR
    obtain ⟨hPRu, hle2, hp2⟩ := h2.1 hPRt
    refine ⟨hPRu, Nat.le_trans hle2 hle1, fun hpu => ?_⟩
    rcases hp2 hpu with hpt | hlt
    · rcases hp1 hpt with hps | hlt
      · exact Or.inl hps
      · exact Or.inr (Nat.lt_of_le_of_lt hle2 hlt)
    · exact Or.inr (Nat.lt_of_lt_of_le hlt hle1)
  · obtain ⟨hGt, hext1⟩ := h1.2.1 hG
    obtain ⟨hGu, hext2⟩ := h2.2.1 hGt
    exact ⟨hGu, hext1.trans hext2⟩
  · have ht := h1.2.2 hF
    rw [ht] at h2
    exact h2.2.2 hF

/-- Any fold whose steps are all related to their input by `StepRel`
relates its input to its output. -/
theorem foldl_StepRel {α : Type} (step : PState → α → PState) (l : List α)
    (h : ∀ u a, a ∈ l → StepRel u (step u a)) :
    ∀ s, StepRel s (l.foldl step s) := by
  induction l with
  | nil => intro s; exact StepRel_rfl s
  | cons a t ih =>
    intro s
    rw [List.foldl_cons]
    exact StepRel_trans (h s a (List.mem_cons_self _ _))
      (ih (fun u b hb => h u b (List.mem_cons_of_mem _ hb)) (step s a))

theorem countP_congr_of_eq {α : Type} (p q : α → Bool) :
    ∀ l : List α, (∀ y ∈ l, p y = q y) → l.countP p = l.countP q := by
  intro l
  induction l with
  | nil => intro _; rfl
  | cons a t ih =>
    intro h
    rw [List.countP_cons, List.countP_cons, h a (List.mem_cons_self _ _),
      ih (fun y hy => h y (List.mem_cons_of_mem _ hy))]

/-- Flipping one satisfied element of a duplicate-free list to unsatisfied
strictly decreases the count. -/
theorem countP_update_lt {α : Type} (p q : α → Bool) :
    ∀ (l : List α), l.Nodup → ∀ x ∈ l, p x = false → q x = true →
      (∀ y ∈ l, y ≠ x → p y = q y) → l.countP p < l.countP q := by
  intro l
  induction l with
  | nil => intro _ x hx; cases hx
  | cons a t ih =>
    intro hnd x hx hpx hqx hother
    obtain ⟨hanot, hndt⟩ := List.nodup_cons.mp hnd
    rw [List.countP_cons, List.countP_cons]
    rcases List.mem_cons.mp hx with rfl | hxt
    · rw [hpx, hqx]
      have heq : t.countP p = t.countP q := by
        refine countP_congr_of_eq p q t (fun y hy => ?_)
        refine hother y (List.mem_cons_of_mem _ hy) ?_
        rintro rfl
        exact hanot hy
      simp [heq]
    · have ha : p a = q a := by
        refine hother a (List.mem_cons_self _ _) ?_
        rintro rfl
        exact hanot hxt
      have := ih hndt x hxt hpx hqx
        (fun y hy hne => hother y (List.mem_cons_of_mem _ hy) hne)
      rw [ha]
      omega

theorem allCells_nodup : allCells.Nodup := by decide

theorem numEmpty_le_81 (g : Grid) : numEmpty g ≤ 81 :=
  Nat.le_trans (List.countP_le_length _) (by decide)

/-- Writing a nonzero digit into an empty in-range cell strictly decreases
the number of empty cells. -/
theorem numEmpty_setCell_lt (g : Grid) (r c num : Nat) (hr : r < 9)
    (hc : c < 9) (h0 : g r c = 0) (hnum : num ≠ 0) :
    numEmpty (setCell g r c num) < numEmpty g := by
  refine countP_update_lt _ _ allCells allCells_nodup (r, c)
    ((mem_allCells r c).mpr ⟨hr, hc⟩) ?_ ?_ ?_
  · simp [setCell_same, hnum]
  · simp [h0]
  · intro y hy hne
    have hne' : ¬(y.1 = r ∧ y.2 = c) := by
      rintro ⟨h1, h2⟩
      exact hne (Prod.ext h1 h2)
    simp only [setCell_ne _ _ _ _ _ _ hne']

/-- The placement block of `solve_greedy` relates its input to its output:
it fills an empty cell with one of its stored candidates and updates the
matrix accordingly. -/
theorem place_StepRel (s : PState) (i j num : Nat) (hi : i < 9) (hj : j < 9)
    (h0 : s.board i j = 0) (hmem : num ∈ s.poss i j) :
    StepRel s (place s i j num) := by
  have hsubset : ∀ x y d, d ∈ (place s i j num).poss x y → d ∈ s.poss x y :=
    fun x y d hd => update_possibilities_subset s.poss i j num x y d hd
  refine ⟨fun hPR => ?_, fun hG => ?_, fun hF => (hF i hi j hj h0).elim⟩
  · obtain ⟨h1, h9⟩ := hPR i j num hmem
    exact ⟨fun x y d hd => hPR x y d (hsubset x y d hd),
      Nat.le_of_lt (numEmpty_setCell_lt s.board i j num hi hj h0 (by omega)),
      fun _ => Or.inr (numEmpty_setCell_lt s.board i j num hi hj h0 (by omega))⟩
  · obtain ⟨hPR, hIR, hNC, hPOK⟩ := hG
    obtain ⟨h1, h9⟩ := hPR i j num hmem
    have hv : is_valid s.board i j num = true := hPOK i j hi hj h0 num hmem
    refine ⟨⟨fun x y d hd => hPR x y d (hsubset x y d hd),
      InRange_setCell s.board i j num hIR h9,
      noConflict_setCell s.board i j num hi hj h1 hv hNC, ?_⟩,
      Extends_setCell s.board i j num h0⟩
    intro x y hx hy hbx d hd
    have hxy_ne : ¬(x = i ∧ y = j) := by
      rintro ⟨rfl, rfl⟩
      have : setCell s.board x y num x y = 0 := hbx
      rw [setCell_same] at this
      omega
    have hold0 : s.board x y = 0 := by
      have : setCell s.board i j num x y = 0 := hbx
      rw [setCell_ne _ _ _ _ _ _ hxy_ne] at this
      exact this
    have hd' : d ∈ update_possibilities s.poss i j num x y := hd
    rw [update_possibilities_apply, if_neg hxy_ne] at hd'
    by_cases hcond : (x = i ∧ y < 9) ∨ (x < 9 ∧ y = j) ∨
        (3 * (i / 3) ≤ x ∧ x < 3 * (i / 3) + 3 ∧
         3 * (j / 3) ≤ y ∧ y < 3 * (j / 3) + 3)
    · rw [if_pos hcond] at hd'
      obtain ⟨hdmem, hdne⟩ := List.mem_filter.mp hd'
      have hdne' : d ≠ num := by simpa using hdne
      have hvold := hPOK x y hx hy hold0 d hdmem
      exact is_valid_setCell_true s.board i j num x y d hx hy hvold
        (fun h => hdne' h.symm)
    · rw [if_neg hcond] at hd'
      have hvold := hPOK x y hx hy hold0 d hd'
      have hni : x ≠ i := by
        rintro rfl
        exact hcond (Or.inl ⟨rfl, hy⟩)
      have hnj : y ≠ j := by
        rintro rfl
        exact hcond (Or.inr (Or.inl ⟨hx, rfl⟩))
      have hnb : ¬(x / 3 = i / 3 ∧ y / 3 = j / 3) := by
        rintro ⟨hbx3, hby3⟩
        exact hcond (Or.inr (Or.inr (by omega)))
      have heq := is_valid_setCell_far s.board i j num x y d hx hy hni hnj hnb
      show is_valid (setCell s.board i j num) x y d = true
      rw [heq]
      exact hvold

theorem nakedStep_StepRel (s : PState) (i j : Nat) (hi : i < 9) (hj : j < 9) :
    StepRel s (nakedStep s i j) := by
  unfold nakedStep
  by_cases hcond : s.board i j = 0 ∧ (s.poss i j).length = 1
  · rw [if_pos hcond]
    obtain ⟨a, ha⟩ := List.length_eq_one.mp hcond.2
    have hmem : (s.poss i j).headD 0 ∈ s.poss i j := by
      rw [ha]; simp
    exact place_StepRel s i j _ hi hj hcond.1 hmem
  · rw [if_neg hcond]
    exact StepRel_rfl s

theorem hiddenRowStep_StepRel (s : PState) (i num : Nat) (hi : i < 9) :
    StepRel s (hiddenRowStep s i num) := by
  have hstep : hiddenRowStep s i num =
      if ((List.range 9).filter
          (fun j => s.board i j == 0 && (s.poss i j).contains num)).length = 1
      then place s i (((List.range 9).filter
          (fun j => s.board i j == 0 && (s.poss i j).contains num)).headD 0) num
      else s := rfl
  rw [hstep]
  by_cases hlen : ((List.range 9).filter
      (fun j => s.board i j == 0 && (s.poss i j).contains num)).length = 1
  · rw [if_pos hlen]
    obtain ⟨a, ha⟩ := List.length_eq_one.mp hlen
    have hmem_a := ha ▸ List.mem_singleton_self a
    obtain ⟨har, hpred⟩ := List.mem_filter.mp hmem_a
    rw [Bool.and_eq_true] at hpred
    have hb0 : s.board i a = 0 := by simpa using hpred.1
    have hpm : num ∈ s.poss i a := by simpa [List.elem_iff] using hpred.2
    rw [ha]
    exact place_StepRel s i a num hi (List.mem_range.mp har) hb0 hpm
  · rw [if_neg hlen]
    exact StepRel_rfl s

theorem hiddenColStep_StepRel (s : PState) (j num : Nat) (hj : j < 9) :
    StepRel s (hiddenColStep s j num) := by
  have hstep : hiddenColStep s j num =
      if ((List.range 9).filter
          (fun i => s.board i j == 0 && (s.poss i j).contains num)).length = 1
      then place s (((List.range 9).filter
          (fun i => s.board i j == 0 && (s.poss i j).contains num)).headD 0) j num
      else s := rfl
  rw [hstep]
  by_cases hlen : ((List.range 9).filter
      (fun i => s.board i j == 0 && (s.poss i j).contains num)).length = 1
  · rw [if_pos hlen]
    obtain ⟨a, ha⟩ := List.length_eq_one.mp hlen
    have hmem_a := ha ▸ List.mem_singleton_self a
    obtain ⟨har, hpred⟩ := List.mem_filter.mp hmem_a
    rw [Bool.and_eq_true] at hpred
    have hb0 : s.board a j = 0 := by simpa using hpred.1
    have hpm : num ∈ s.poss a j := by simpa [List.elem_iff] using hpred.2
    rw [ha]
    exact place_StepRel s a j num (List.mem_range.mp har) hj hb0 hpm
  · rw [if_neg hlen]
    exact StepRel_rfl s

theorem boxStep_StepRel (s : PState) (box num : Nat) (hbox : box < 9) :
    StepRel s (boxStep s box num) := by
  have hstep : boxStep s box num =
      if ((List.range' (3 * (box / 3)) 3).flatMap
          (fun i => ((List.range' (3 * (box % 3)) 3).filter
              (fun j => s.board i j == 0 && (s.poss i j).contains num)).map
            (fun j => (i, j)))).length = 1
      then place s
        (((List.range' (3 * (box / 3)) 3).flatMap
          (fun i => ((List.range' (3 * (box % 3)) 3).filter
              (fun j => s.board i j == 0 && (s.poss i j).contains num)).map
            (fun j => (i, j)))).headD (0, 0)).1
        (((List.range' (3 * (box / 3)) 3).flatMap
          (fun i => ((List.range' (3 * (box % 3)) 3).filter
              (fun j => s.board i j == 0 && (s.poss i j).contains num)).map
            (fun j => (i, j)))).headD (0, 0)).2 num
      else s := rfl
  rw [hstep]
  by_cases hlen : ((List.range' (3 * (box / 3)) 3).flatMap
      (fun i => ((List.range' (3 * (box % 3)) 3).filter
          (fun j => s.board i j == 0 && (s.poss i j).contains num)).map
        (fun j => (i, j)))).length = 1
  · rw [if_pos hlen]
    obtain ⟨a, ha⟩ := List.length_eq_one.mp hlen
    have hmem_a := ha ▸ List.mem_singleton_self a
    obtain ⟨i0, hi0, hmap⟩ := List.mem_flatMap.mp hmem_a
    obtain ⟨j0, hj0f, hpair⟩ := List.mem_map.mp hmap
    obtain ⟨hj0r, hpred⟩ := List.mem_filter.mp hj0f
    have hi0b := List.mem_range'_1.mp hi0
    have hj0b := List.mem_range'_1.mp hj0r
    rw [Bool.and_eq_true] at hpred
    have hb0 : s.board i0 j0 = 0 := by simpa using hpred.1
    have hpm : num ∈ s.poss i0 j0 := by simpa [List.elem_iff] using hpred.2
    rw [ha, ← hpair]
    exact place_StepRel s i0 j0 num (by omega) (by omega) hb0 hpm
  · rw [if_neg hlen]
    exact StepRel_rfl s

theorem nakedPhase_StepRel (s : PState) : StepRel s (nakedPhase s) := by
  unfold nakedPhase
  refine foldl_StepRel _ _ (fun u a ha => ?_) s
  refine foldl_StepRel _ _ (fun u' b hb => ?_) u
  exact nakedStep_StepRel u' a b (List.mem_range.mp ha) (List.mem_range.mp hb)

theorem hiddenRowPhase_StepRel (s : PState) : StepRel s (hiddenRowPhase s) := by
  unfold hiddenRowPhase
  refine foldl_StepRel _ _ (fun u a ha => ?_) s
  refine foldl_StepRel _ _ (fun u' b _ => ?_) u
  exact hiddenRowStep_StepRel u' a b (List.mem_range.mp ha)

theorem hiddenColPhase_StepRel (s : PState) : StepRel s (hiddenColPhase s) := by
  unfold hiddenColPhase
  refine foldl_StepRel _ _ (fun u a ha => ?_) s
  refine foldl_StepRel _ _ (fun u' b _ => ?_) u
  exact hiddenColStep_StepRel u' a b (List.mem_range.mp ha)

theorem boxPhase_StepRel (s : PState) : StepRel s (boxPhase s) := by
  unfold boxPhase
  refine foldl_StepRel _ _ (fun u a ha => ?_) s
  refine foldl_StepRel _ _ (fun u' b _ => ?_) u
  exact boxStep_StepRel u' a b (List.mem_range.mp ha)

/-- One full pass is related to the pass's starting state (progress flag
freshly reset, as the loop body does first). -/
theorem pass_StepRel (s : PState) :
    StepRel { s with progress := false } (propagationPass s) := by
  unfold propagationPass
  exact StepRel_trans (nakedPhase_StepRel _)
    (StepRel_trans (hiddenRowPhase_StepRel _)
      (StepRel_trans (hiddenColPhase_StepRel _) (boxPhase_StepRel _)))

/-- A pass keeps candidates in 1..9, never adds empty cells, and strictly
removes one whenever it reports progress. -/
theorem pass_PR (s : PState) (hPR : PR s) :
    PR (propagationPass s) ∧
    numEmpty (propagationPass s).board ≤ numEmpty s.board ∧
    ((propagationPass s).progress = true →
      numEmpty (propagationPass s).board < numEmpty s.board) := by
  obtain ⟨h1, h2, h3⟩ := (pass_StepRel s).1 hPR
  refine ⟨h1, h2, fun hp => ?_⟩
  rcases h3 hp with habs | hlt
  · simp at habs
  · exact hlt

theorem pass_GInv (s : PState) (hG : GInv s) :
    GInv (propagationPass s) ∧ Extends s.board (propagationPass s).board :=
  (pass_StepRel s).2.1 hG

/-- On a full board a pass is a no-op apart from resetting the progress
flag: no rule fires. -/
theorem pass_full (s : PState) (hF : FullBoard s.board) :
    propagationPass s = { s with progress := false } :=
  (pass_StepRel s).2.2 hF

theorem greedyLoop_noprogress (s : PState) (h : s.progress = false) :
    ∀ fuel, greedyLoop fuel s = s := by
  intro fuel
  cases fuel with
  | zero => rfl
  | succ n => simp [greedyLoop, h]

theorem greedyLoop_GInv : ∀ (fuel : Nat) (s : PState), GInv s →
    GInv (greedyLoop fuel s) ∧ Extends s.board (greedyLoop fuel s).board := by
  intro fuel
  induction fuel with
  | zero => intro s hG; exact ⟨hG, Extends.refl _⟩
  | succ n ih =>
    intro s hG
    by_cases hp : s.progress = true
    · obtain ⟨hG2, hext⟩ := pass_GInv s hG
      obtain ⟨hG3, hext2⟩ := ih (propagationPass s) hG2
      simp only [greedyLoop, if_pos hp]
      exact ⟨hG3, hext.trans hext2⟩
    · simp only [greedyLoop, if_neg hp]
      exact ⟨hG, Extends.refl _⟩

/-- Termination of the `while progress` loop: with fuel exceeding the
number of empty cells the loop reaches a fixed point (final progress flag
false) and extra fuel makes no difference. -/
theorem greedyLoop_term : ∀ (n : Nat) (s : PState), PR s →
    numEmpty s.board < n →
    (greedyLoop n s).progress = false ∧
    ∀ m, n ≤ m → greedyLoop m s = greedyLoop n s := by
  intro n
  induction n with
  | zero => intro s _ h; exact absurd h (Nat.not_lt_zero _)
  | succ n ih =>
    intro s hPR hlt
    by_cases hp : s.progress = true
    · obtain ⟨hPR2, hle, hstrict⟩ := pass_PR s hPR
      by_cases hq : (propagationPass s).progress = true
      · have hlt2 : numEmpty (propagationPass s).board < n := by
          have := hstrict hq; omega
        obtain ⟨h1, h2⟩ := ih (propagationPass s) hPR2 hlt2
        constructor
        · simp only [greedyLoop, if_pos hp]; exact h1
        · intro m hm
          cases m with
          | zero => omega
          | succ m =>
            simp only [greedyLoop, if_pos hp]
            exact h2 m (Nat.le_of_succ_le_succ hm)
      · have hq' : (propagationPass s).progress = false := by
          revert hq; cases (propagationPass s).progress <;> simp
        constructor
        · simp only [greedyLoop, if_pos hp]
          rw [greedyLoop_noprogress _ hq' n]; exact hq'
        · intro m hm
          cases m with
          | zero => omega
          | succ m =>
            simp only [greedyLoop, if_pos hp]
            rw [greedyLoop_noprogress _ hq' m, greedyLoop_noprogress _ hq' n]
    · have hp' : s.progress = false := by
        revert hp; cases s.progress <;> simp
      constructor
      · rw [greedyLoop_noprogress s hp']; exact hp'
      · intro m _
        rw [greedyLoop_noprogress s hp', greedyLoop_noprogress s hp']

theorem greedyInit_PR (g : Grid) (st : Nat) : PR (greedyInit g st) := by
  intro i j d hd
  have hd' : d ∈ initialize_possibilities g i j := hd
  unfold initialize_possibilities at hd'
  by_cases hcond : i < 9 ∧ j < 9 ∧ g i j = 0
  · rw [if_pos hcond] at hd'
    have := List.mem_range'_1.mp (List.mem_filter.mp hd').1
    omega
  · rw [if_neg hcond] at hd'
    cases hd'

theorem greedyInit_GInv (g : Grid) (st : Nat) (hir : InRange g)
    (hnc : noConflict g) : GInv (greedyInit g st) := by
  refine ⟨greedyInit_PR g st, hir, hnc, ?_⟩
  intro i j hi hj hb0 d hd
  have hd' : d ∈ initialize_possibilities g i j := hd
  unfold initialize_possibilities at hd'
  rw [if_pos ⟨hi, hj, hb0⟩] at hd'
  have := (List.mem_filter.mp hd').2
  simpa using this

theorem board_all_check (b : Grid) :
    (((List.range 9).all fun i => (List.range 9).all fun j => !(b i j == 0))
      = true) ↔ FullBoard b := by
  constructor
  · intro h i hi j hj
    have h1 := List.all_eq_true.mp h i (List.mem_range.mpr hi)
    have h2 := List.all_eq_true.mp h1 j (List.mem_range.mpr hj)
    simpa using h2
  · intro h
    refine List.all_eq_true.mpr fun i hi => List.all_eq_true.mpr fun j hj => ?_
    simpa using h i (List.mem_range.mp hi) j (List.mem_range.mp hj)

theorem solve_greedy_fst_iff (g : Grid) (st : Nat) :
    (solve_greedy g st).1 = true ↔ FullBoard (solve_greedy g st).2.1 := by
  simp only [solve_greedy]
  exact board_all_check (greedyLoop 82 (greedyInit g st)).board

/-- C4: `solve_greedy()` returns true exactly when the board it leaves at
the propagation fixed point has no remaining empty cell. -/
theorem c4_solve_greedy_true_iff_no_empty (g : Grid) (st : Nat) :
    (solve_greedy g st).1 = true ↔
      ∀ i, i < 9 → ∀ j, j < 9 → (solve_greedy g st).2.1 i j ≠ 0 :=
  solve_greedy_fst_iff g st

/-- Witness for C4: the equivalence instantiated on the solved example
grid. -/
theorem c4_solve_greedy_true_iff_no_empty_witness :
    (solve_greedy exGrid 0).1 = true ↔
      ∀ i, i < 9 → ∀ j, j < 9 → (solve_greedy exGrid 0).2.1 i j ≠ 0 :=
  c4_solve_greedy_true_iff_no_empty exGrid 0

/-- C5: the `while progress` loop of `solve_greedy` terminates.  Each pass
that reports progress fills at least one of the at most 81 empty cells, so
after at most `numEmpty g + 1` passes a pass makes zero placements (final
progress flag false); any further fuel changes nothing, and the fixed fuel
82 used by `solve_greedy` already reaches that fixed point. -/
theorem c5_propagation_terminates (g : Grid) (st : Nat) :
    (greedyLoop (numEmpty g + 1) (greedyInit g st)).progress = false ∧
    (∀ fuel, numEmpty g + 1 ≤ fuel →
      greedyLoop fuel (greedyInit g st)
        = greedyLoop (numEmpty g + 1) (greedyInit g st)) ∧
    greedyLoop 82 (greedyInit g st)
      = greedyLoop (numEmpty g + 1) (greedyInit g st) := by
  have h := greedyLoop_term (numEmpty g + 1) (greedyInit g st)
    (greedyInit_PR g st) (Nat.lt_succ_self _)
  refine ⟨h.1, h.2, h.2 82 ?_⟩
  have := numEmpty_le_81 g
  omega

/-- Witness for C5: on the example grid the loop reaches its fixed point
and fuel 83 gives the same result as the sufficient fuel. -/
theorem c5_propagation_terminates_witness :
    (greedyLoop (numEmpty exGrid + 1) (greedyInit exGrid 0)).progress
      = false ∧
    greedyLoop 83 (greedyInit exGrid 0)
      = greedyLoop (numEmpty exGrid + 1) (greedyInit exGrid 0) :=
  ⟨(c5_propagation_terminates exGrid 0).1,
    (c5_propagation_terminates exGrid 0).2.1 83 (by decide)⟩

theorem solve_greedy_eq (g : Grid) (st : Nat) :
    solve_greedy g st =
      (((List.range 9).all fun i => (List.range 9).all fun j =>
          !((greedyLoop 82 (greedyInit g st)).board i j == 0)),
        (greedyLoop 82 (greedyInit g st)).board,
        (greedyLoop 82 (greedyInit g st)).steps) := by
  simp only [solve_greedy]

theorem greedyLoop_succ (n : Nat) (s : PState) :
    greedyLoop (n + 1) s
      = if s.progress = true then greedyLoop n (propagationPass s) else s := rfl

theorem greedyLoop82_full (g : Grid) (hfull : FullBoard g) :
    greedyLoop 82 (greedyInit g 0) = { greedyInit g 0 with progress := false } := by
  have hpass : propagationPass (greedyInit g 0)
      = { greedyInit g 0 with progress := false } :=
    pass_full (greedyInit g 0) hfull
  show greedyLoop (81 + 1) (greedyInit g 0) = _
  rw [greedyLoop_succ, if_pos (show (greedyInit g 0).progress = true from rfl),
    hpass, greedyLoop_noprogress _
      (show ({ greedyInit g 0 with progress := false } : PState).progress = false
        from rfl) 81]

/-- On a full board `solve_greedy` makes zero placements, leaves the board
as given, and reports success. -/
theorem solve_greedy_full (g : Grid) (hfull : FullBoard g) :
    solve_greedy g 0 = (true, g, 0) := by
  rw [solve_greedy_eq g 0, greedyLoop82_full g hfull]
  rw [show ({ greedyInit g 0 with progress := false } : PState).board = g from rfl,
    show ({ greedyInit g 0 with progress := false } : PState).steps = 0 from rfl,
    (board_all_check g).mpr hfull]

/-- On a full board `solve_combined` returns true immediately with the
board untouched and both counters at zero (so the backtracking search is
never entered, which would have incremented the step counter). -/
theorem solve_combined_full (g : Grid) (hfull : FullBoard g) :
    solve_combined g = (true, g, 0, 0) := by
  unfold solve_combined
  rw [solve_greedy_full g hfull]

/-- `solve_combined` dispatches on the outcome of the greedy phase: a true
flag short-circuits, a false flag hands the greedy board to backtracking. -/
theorem solve_combined_eq_cases (g : Grid) (res : Bool) (b : Grid) (st : Nat)
    (h : solve_greedy g 0 = (res, b, st)) :
    solve_combined g =
      if res then (true, b, st, 0) else solve_smart_backtracking 82 b st 0 := by
  unfold solve_combined
  rw [h]
  cases res <;> rfl

/-- A successful combined solve on a conflict-free in-range input leaves a
full, conflict-free, in-range extension of the input grid. -/
theorem solve_combined_sound (g : Grid) (hir : InRange g) (hnc : noConflict g)
    (htrue : (solve_combined g).1 = true) :
    InRange (solve_combined g).2.1 ∧ noConflict (solve_combined g).2.1 ∧
    FullBoard (solve_combined g).2.1 ∧ Extends g (solve_combined g).2.1 := by
  have hG := greedyInit_GInv g 0 hir hnc
  obtain ⟨⟨_, hIRf, hNCf, _⟩, hext⟩ := greedyLoop_GInv 82 (greedyInit g 0) hG
  have hext' : Extends g (greedyLoop 82 (greedyInit g 0)).board := hext
  rcases hsg : solve_greedy g 0 with ⟨res, b, st2⟩
  have hsc := solve_combined_eq_cases g res b st2 hsg
  have hcomp := (solve_greedy_eq g 0).symm.trans hsg
  simp only [Prod.mk.injEq] at hcomp
  obtain ⟨hresq, hb, _⟩ := hcomp
  rw [hb] at hIRf hNCf hext'
  cases res with
  | true =>
    have hsc' : solve_combined g = (true, b, st2, 0) := hsc
    rw [hsc'] at htrue ⊢
    have hfull : FullBoard b := by
      rw [← hb]
      exact (board_all_check _).mp hresq
    exact ⟨hIRf, hNCf, hfull, hext'⟩
  | false =>
    have hsc' : solve_combined g = solve_smart_backtracking 82 b st2 0 := hsc
    rw [hsc'] at htrue ⊢
    have hs := ssb_sound 82 b st2 0 hIRf hNCf htrue
    exact ⟨hs.1, hs.2.1, hs.2.2.1, Extends.trans hext' hs.2.2.2⟩

/-- C1 (amended): for a 9×9 input with entries 0..9 whose given nonzero
clues contain no duplicate within any row, column or box, a true return
from `solve_combined()` means every cell of the final grid holds a digit
1..9 and every row, column and box contains each digit exactly once. -/
theorem c1_solve_combined_solved (g : Grid) (hir : InRange g)
    (hnc : noConflict g) (htrue : (solve_combined g).1 = true) :
    SolvedAll (solve_combined g).2.1 := by
  obtain ⟨h1, h2, h3, _⟩ := solve_combined_sound g hir hnc htrue
  exact solvedAll_of_noConflict _ h3 h1 h2

/-- Counterexample to C1 as stated: `badGrid` has all entries in 0..9, yet
`solve_combined()` returns true while the final grid holds the digit 3
twice in row 0 — the consistency of the given clues cannot be dropped. -/
theorem c1_counterexample :
    (∀ i, i < 9 → ∀ j, j < 9 → badGrid i j ≤ 9) ∧
    (solve_combined badGrid).1 = true ∧
    ¬ SolvedAll (solve_combined badGrid).2.1 := by
  have h := solve_combined_full badGrid (by decide)
  refine ⟨by decide, by rw [h], ?_⟩
  rw [h]
  intro hS
  have h1 : rowCount badGrid 0 3 = 1 := hS.2.1 0 (by omega) 3 (by omega) (by omega)
  have h2 : rowCount badGrid 0 3 = 2 := by decide
  omega

/-- Witness for C1: the amended theorem applied to the already-solved
example grid. -/
theorem c1_solve_combined_solved_witness :
    noConflict exGrid ∧ SolvedAll (solve_combined exGrid).2.1 :=
  ⟨by decide, c1_solve_combined_solved exGrid (by decide) (by decide)
    (by rw [solve_combined_full exGrid (by decide)])⟩

/-- C2 (amended): for a 9×9 input with entries 0..9 whose given clues are
conflict-free, if no legal completion exists then `solve_combined()`
returns false (a boolean, not an exception — the embedding is total). -/
theorem c2_unsolvable_returns_false (g : Grid) (hir : InRange g)
    (hnc : noConflict g) (hnone : ¬ ∃ g', Completes g g') :
    (solve_combined g).1 = false := by
  rcases Bool.eq_false_or_eq_true (solve_combined g).1 with h | h
  · exfalso
    obtain ⟨hIR2, hNC2, hFull2, hExt2⟩ := solve_combined_sound g hir hnc h
    refine hnone ⟨(solve_combined g).2.1, ⟨?_, hNC2⟩⟩
    intro i hi j hj
    constructor
    · intro hnz
      exact hExt2 i j hnz
    · intro _
      have hne := hFull2 i hi j hj
      have hle := hIR2 i hi j hj
      omega
  · exact h

/-- Counterexample to C2 as stated: `badGrid` admits no legal completion
(it is already full and conflicted), yet `solve_combined()` returns
true — consistency of the givens cannot be dropped. -/
theorem c2_counterexample :
    (¬ ∃ g', Completes badGrid g') ∧ (solve_combined badGrid).1 = true := by
  constructor
  · rintro ⟨g', hpt, hnc'⟩
    have h00 : g' 0 0 = 3 := by
      have h := (hpt 0 (by omega) 0 (by omega)).1 (by decide)
      rw [h]; decide
    have h01 : g' 0 1 = 3 := by
      have h := (hpt 0 (by omega) 1 (by omega)).1 (by decide)
      rw [h]; decide
    have hneq := hnc' 0 (by omega) 0 (by omega) 0 (by omega) 1 (by omega)
      ⟨by decide, Or.inl rfl, by rw [h00]; omega⟩
    rw [h00, h01] at hneq
    exact hneq rfl
  · rw [solve_combined_full badGrid (by decide)]

/-- The consistent position `g2Grid` admits no legal completion: any
completion must put some digit 1..9 at `(0, 8)`, but 1..8 sit in row 0 and
9 sits in column 8. -/
theorem g2_no_completion : ¬ ∃ g', Completes g2Grid g' := by
  rintro ⟨g', hpt, hnc'⟩
  have hvals : ∀ j, j < 8 → g' 0 j = j + 1 := by
    intro j hj
    have hne : g2Grid 0 j ≠ 0 := by simp [g2Grid, hj]
    have h := (hpt 0 (by omega) j (by omega)).1 hne
    rw [h]
    simp [g2Grid, hj]
  have h18 : g' 1 8 = 9 := by
    have h := (hpt 1 (by omega) 8 (by omega)).1 (by decide)
    rw [h]; decide
  have h08 : 1 ≤ g' 0 8 ∧ g' 0 8 ≤ 9 := (hpt 0 (by omega) 8 (by omega)).2 (by decide)
  have hrow : ∀ j, j < 8 → g' 0 8 ≠ j + 1 := by
    intro j hj
    have h := hnc' 0 (by omega) 8 (by omega) 0 (by omega) j (by omega)
      ⟨by simp only [ne_eq, Prod.mk.injEq, not_and]; intro _; omega,
        Or.inl rfl, by omega⟩
    rw [hvals j hj] at h
    exact h
  have hcol : g' 0 8 ≠ 9 := by
    have h := hnc' 0 (by omega) 8 (by omega) 1 (by omega) 8 (by omega)
      ⟨by decide, Or.inr (Or.inl rfl), by omega⟩
    rw [h18] at h
    exact h
  have k0 := hrow 0 (by omega)
  have k1 := hrow 1 (by omega)
  have k2 := hrow 2 (by omega)
  have k3 := hrow 3 (by omega)
  have k4 := hrow 4 (by omega)
  have k5 := hrow 5 (by omega)
  have k6 := hrow 6 (by omega)
  have k7 := hrow 7 (by omega)
  omega

/-- Witness for C2: the amended theorem applied to the unsolvable but
conflict-free `g2Grid`. -/
theorem c2_unsolvable_returns_false_witness :
    noConflict g2Grid ∧ (solve_combined g2Grid).1 = false :=
  ⟨by decide, c2_unsolvable_returns_false g2Grid (by decide) (by decide)
    g2_no_completion⟩

/-- C8: on an already fully solved grid `solve_combined()` returns true
with the grid unchanged and both counters still zero — propagation makes
no placement and the backtracking search (which increments the step
counter on entry) is never invoked. -/
theorem c8_solved_grid_idempotent (g : Grid) (hsolved : SolvedAll g) :
    (solve_greedy g 0).1 = true ∧ solve_combined g = (true, g, 0, 0) := by
  have hfull : FullBoard g := by
    intro i hi j hj
    have := (hsolved.1 i hi j hj).1
    omega
  refine ⟨?_, solve_combined_full g hfull⟩
  rw [solve_greedy_full g hfull]

/-- Witness for C8: the theorem applied to the solved example grid. -/
theorem c8_solved_grid_idempotent_witness :
    SolvedAll exGrid ∧ ((solve_greedy exGrid 0).1 = true ∧
      solve_combined exGrid = (true, exGrid, 0, 0)) :=
  ⟨by decide, c8_solved_grid_idempotent exGrid (by decide)⟩

/-- Witness for C6: the scan on `g2Grid` returns `(0, 8)`, the first empty
cell with the minimal (zero) candidate count. -/
theorem c6_find_most_constrained_cell_spec_witness :
    find_most_constrained_cell g2Grid = some (0, 8) ∧
    (0 < 9 ∧ 8 < 9 ∧ g2Grid 0 8 = 0 ∧
      (∀ i j, i < 9 → j < 9 → g2Grid i j = 0 →
        possCount g2Grid 0 8 ≤ possCount g2Grid i j) ∧
      (∀ i j, i < 9 → j < 9 → g2Grid i j = 0 →
        possCount g2Grid i j = possCount g2Grid 0 8 →
        0 * 9 + 8 ≤ i * 9 + j)) :=
  ⟨by decide,
    (c6_find_most_constrained_cell_spec g2Grid).2 0 8 (by decide)⟩

end SudokuSolver

